import Mathlib

/-!
Word redaction add-in (`taskpane.js`): detector, aggregator, composer, orchestrator

A shallow embedding of `src/taskpane.js`.

* Text is a `String`; the regular-expression engine works on its `List Char`.
  The three patterns of the source contain no flag besides `g`, no capture
  that is read back and no quantifier over anything but a character class,
  so the engine below covers exactly the constructs they use. A `Char` is a
  code point where JavaScript has UTF-16 code units; every class of the
  patterns and `\b` only accept characters of the basic plane, so the matched
  values are the same.
* The host document (Office.js) is an external collaborator: it is a
  parameter `Host σ` of the orchestrator, every call may throw.
-/

namespace Taskpane

/-! ## Character classes of the three patterns -/

/-- ASCII digit, the class `\d`. -/
def isDigit (c : Char) : Bool := decide (48 ≤ c.toNat) && decide (c.toNat ≤ 57)

/-- ASCII letter, the class `[A-Za-z]`. -/
def isAlpha (c : Char) : Bool :=
  (decide (65 ≤ c.toNat) && decide (c.toNat ≤ 90)) ||
  (decide (97 ≤ c.toNat) && decide (c.toNat ≤ 122))

/-- Word character of `\b`: `[A-Za-z0-9_]`. -/
def isWordChar (c : Char) : Bool := isAlpha c || isDigit c || c == '_'

/-- White space of `\s` (ECMAScript WhiteSpace and LineTerminator). -/
def isSpace (c : Char) : Bool :=
  let n := c.toNat
  (decide (9 ≤ n) && decide (n ≤ 13)) || n == 32 || n == 160 || n == 5760 ||
  (decide (8192 ≤ n) && decide (n ≤ 8202)) || n == 8232 || n == 8233 ||
  n == 8239 || n == 8287 || n == 12288 || n == 65279

/-- The class `[A-Za-z0-9._%+-]` (local part of an email). -/
def isEmailLocal (c : Char) : Bool :=
  isAlpha c || isDigit c || c == '.' || c == '_' || c == '%' || c == '+' || c == '-'

/-- The class `[A-Za-z0-9.-]` (domain of an email). -/
def isEmailDomain (c : Char) : Bool :=
  isAlpha c || isDigit c || c == '.' || c == '-'

/-- The class `[\s.-]` (separator of a phone number). -/
def isSep (c : Char) : Bool := isSpace c || c == '.' || c == '-'

/-! ## Regular expressions and the backtracking matcher -/

/-- The regular-expression constructs used by the source's patterns. -/
inductive Re where
  /-- One character of a class. -/
  | set (p : Char → Bool)
  /-- The assertion `\b`. -/
  | wordB
  /-- Concatenation. -/
  | seq (a b : Re)
  /-- Greedy `(?:a)?`. -/
  | opt (a : Re)
  /-- Greedy repetition of a class: `lo` to `hi` times, unbounded for `none`. -/
  | rep (p : Char → Bool) (lo : Nat) (hi : Option Nat)

/-- Whether a neighbouring position holds a word character (none at the ends). -/
def isWordAt (c : Option Char) : Bool :=
  match c with
  | some c => isWordChar c
  | none => false

/-- The character before the position reached after consuming `m`. -/
def lastOf (prev : Option Char) (m : List Char) : Option Char :=
  match m.getLast? with
  | some c => some c
  | none => prev

/-- All ways a greedy class repetition can match at the head of `rest`, in
backtracking priority order (longest first); each is (matched, remainder). -/
def repRun (p : Char → Bool) : Nat → Option Nat → List Char → List (List Char × List Char)
  | lo, _, [] => if lo = 0 then [([], [])] else []
  | lo, hi, c :: cs =>
    (if p c && hi != some 0 then
      (repRun p (lo - 1) (hi.map Nat.pred) cs).map (fun mr => (c :: mr.1, mr.2))
    else []) ++
    (if lo = 0 then [([], c :: cs)] else [])

/-- All ways `r` can match at a position whose preceding character is `prev`
and whose remaining input is `rest`, in the order a backtracking engine tries
them; each is (matched, remainder). -/
def Re.run : Re → Option Char → List Char → List (List Char × List Char)
  | .set p, _, rest =>
    match rest with
    | c :: cs => if p c then [([c], cs)] else []
    | [] => []
  | .wordB, prev, rest =>
    if isWordAt prev != isWordAt rest.head? then [([], rest)] else []
  | .seq a b, prev, rest =>
    (a.run prev rest).flatMap fun m1 =>
      (b.run (lastOf prev m1.1) m1.2).map fun m2 => (m1.1 ++ m2.1, m2.2)
  | .opt a, prev, rest => a.run prev rest ++ [([], rest)]
  | .rep p lo hi, _, rest => repRun p lo hi rest

/-- The match a backtracking engine reports at this position, if any. -/
def Re.exec (r : Re) (prev : Option Char) (rest : List Char) : Option (List Char) :=
  ((r.run prev rest).head?).map Prod.fst

/-- The iteration of `String.prototype.matchAll` with a `g` pattern: `skip` is
the number of characters still covered by the previous match. An empty match
advances the position by one. -/
def matchAllGo (r : Re) : Option Char → List Char → Nat → List (List Char)
  | prev, [], skip =>
    if skip = 0 then
      match r.exec prev [] with
      | some m => [m]
      | none => []
    else []
  | prev, c :: cs, 0 =>
    match r.exec prev (c :: cs) with
    | some m => m :: matchAllGo r (some c) cs (m.length - 1)
    | none => matchAllGo r (some c) cs 0
  | _, c :: cs, skip + 1 => matchAllGo r (some c) cs skip

/-- The values `match[0]` of `text.matchAll(regex)`, in order. -/
def matchAll (r : Re) (text : String) : List String :=
  (matchAllGo r none text.data 0).map String.mk

/-- A single literal character. -/
def Re.chr (c : Char) : Re := .set (fun d => d == c)

/-- Pattern `/[A-Za-z0-9._%+-]+@[A-Za-z0-9.-]+\.[A-Za-z]{2,}/g`. -/
def emailRe : Re :=
  .seq (.rep isEmailLocal 1 none)
  (.seq (Re.chr '@')
  (.seq (.rep isEmailDomain 1 none)
  (.seq (Re.chr '.')
        (.rep isAlpha 2 none))))

/-- Pattern
`/\b(?:\+?\d{1,2}[\s.-]?)?(?:\(?\d{3}\)?[\s.-]?)\d{3}[\s.-]?\d{4}\b/g`. -/
def phoneRe : Re :=
  .seq .wordB
  (.seq (.opt (.seq (.opt (Re.chr '+')) (.seq (.rep isDigit 1 (some 2)) (.opt (.set isSep)))))
  (.seq (.seq (.opt (Re.chr '(')) (.seq (.rep isDigit 3 (some 3))
          (.seq (.opt (Re.chr ')')) (.opt (.set isSep)))))
  (.seq (.rep isDigit 3 (some 3))
  (.seq (.opt (.set isSep))
  (.seq (.rep isDigit 4 (some 4))
        .wordB)))))

/-- Pattern `/\b\d{3}-\d{2}-\d{4}\b/g`. -/
def ssnRe : Re :=
  .seq .wordB
  (.seq (.rep isDigit 3 (some 3))
  (.seq (Re.chr '-')
  (.seq (.rep isDigit 2 (some 2))
  (.seq (Re.chr '-')
  (.seq (.rep isDigit 4 (some 4))
        .wordB)))))

/-! ## Pattern detector -/

/-- The three kinds of a match. -/
inductive Kind where
  | email
  | phone
  | ssn
  deriving DecidableEq, Repr

/-- A classified match `{ value, kind }`. -/
structure Match where
  value : String
  kind : Kind
  deriving DecidableEq, Repr

/-- One step of the loop of `addMatches`: the state is (`seen`, `results`). -/
def addMatchesStep (kind : Kind) (st : List String × List Match) (val : String) :
    List String × List Match :=
  if !st.1.contains val then (val :: st.1, st.2 ++ [{ value := val, kind := kind }])
  else st

/-- The inner helper `addMatches(regex, kind)`: `seen` starts empty on every
call, `results` is the list shared by the three calls. -/
def addMatches (text : String) (results : List Match) (regex : Re) (kind : Kind) :
    List Match :=
  ((matchAll regex text).foldl (addMatchesStep kind) ([], results)).2

/-- The detector `findSensitivePatterns(text)`. -/
def findSensitivePatterns (text : String) : List Match :=
  let results : List Match := []
  let results := addMatches text results emailRe .email
  let results := addMatches text results phoneRe .phone
  let results := addMatches text results ssnRe .ssn
  results

/-! ## Stats aggregator -/

/-- The object `counts`, one counter per kind. -/
structure ByKind where
  email : Nat
  phone : Nat
  ssn : Nat
  deriving DecidableEq, Repr

/-- The value returned by `getStats`. -/
structure Stats where
  total : Nat
  byKind : ByKind
  deriving DecidableEq, Repr

/-- The statement `counts[m.kind]++`. -/
def bump (counts : ByKind) (kind : Kind) : ByKind :=
  match kind with
  | .email => { counts with email := counts.email + 1 }
  | .phone => { counts with phone := counts.phone + 1 }
  | .ssn => { counts with ssn := counts.ssn + 1 }

/-- The aggregator `getStats(matches)`. -/
def getStats (ms : List Match) : Stats :=
  let counts : ByKind := { email := 0, phone := 0, ssn := 0 }
  let counts := ms.foldl (fun counts m => bump counts m.kind) counts
  { total := ms.length, byKind := counts }

/-! ## Message composer -/

/-- The composer `buildMessage(stats, trackingMsg)`; a number is rendered in
decimal, `parts.push` appends, an empty `trackingMsg` is falsy. -/
def buildMessage (stats : Stats) (trackingMsg : String) : String :=
  let parts : List String := []
  let parts :=
    if stats.byKind.email > 0 then
      parts ++ [toString stats.byKind.email ++ " email" ++
        (if stats.byKind.email ≠ 1 then "s" else "")]
    else parts
  let parts :=
    if stats.byKind.phone > 0 then
      parts ++ [toString stats.byKind.phone ++ " phone" ++
        (if stats.byKind.phone ≠ 1 then "s" else "")]
    else parts
  let parts :=
    if stats.byKind.ssn > 0 then
      parts ++ [toString stats.byKind.ssn ++ " SSN" ++
        (if stats.byKind.ssn ≠ 1 then "s" else "")]
    else parts
  let msg := "Redaction complete. Replaced " ++ toString stats.total ++ " item" ++
    (if stats.total ≠ 1 then "s" else "")
  let msg := if parts.length > 0 then msg ++ " (" ++ ", ".intercalate parts ++ ")" else msg
  let msg := if trackingMsg ≠ "" then msg ++ ". " ++ trackingMsg else msg
  msg

/-! ## Host document, thrown values and the world of one run -/

/-- The labels `REDACTION_LABELS[kind]`. -/
def REDACTION_LABELS (kind : Kind) : String :=
  match kind with
  | .email => "[REDACTED EMAIL]"
  | .phone => "[REDACTED PHONE]"
  | .ssn => "[REDACTED SSN]"

/-- The banner `HEADER_TEXT`. -/
def HEADER_TEXT : String := "CONFIDENTIAL DOCUMENT"

/-- A value that reaches `catch (e)`. An absent or falsy `message` or `code`
is the empty string, `debugInfo` holds the text `JSON.stringify` gives for a
truthy `debugInfo`, `toStr` is the result of `toString()`. -/
inductive Thrown where
  /-- A thrown string (`typeof error === "string"`). -/
  | str (s : String)
  /-- An instance of `Error`. -/
  | error (message toStr : String) (debugInfo : Option String) (code : String)
  /-- Another non-null object. -/
  | object (message toStr : String) (debugInfo : Option String)
  /-- A number, boolean, symbol or bigint. -/
  | prim (toStr : String)
  /-- The values `null` and `undefined`. -/
  | nullish
  deriving DecidableEq, Repr

/-- The requests the source sends to the host; the statements that only build
a proxy and load it are grouped with the request they prepare. -/
inductive Call where
  /-- The start of `Word.run`. -/
  | runBegin
  /-- The synchronisation `Word.run` performs after the callback. -/
  | runEnd
  /-- The assignment `context.document.trackRevisions = true`. -/
  | setTrackRevisions
  /-- The request `context.sync()`. -/
  | sync
  /-- The requests `context.document.sections` and `sections.load("items")`. -/
  | loadSections
  /-- The requests `getHeader(primary)`, `getRange()` and `load("text")`. -/
  | loadHeaderText
  /-- The request `header.insertParagraph(text, start)`. -/
  | insertParagraph (text : String)
  /-- The requests `context.document.body.getRange()` and `load("text")`. -/
  | loadBodyText
  /-- The requests `body.search(value, ...)` and `context.load(found, "items")`. -/
  | search (value : String)
  /-- The request `found.items[range].insertText(label, replace)`. -/
  | insertText (range : Nat) (label : String)
  deriving DecidableEq, Repr

/-- The document collaborator over its own state `σ`: every request may throw
and may change the state; the four reads are the properties the source reads
after a synchronisation. -/
structure Host (σ : Type) where
  /-- The check `Office.context.requirements.isSetSupported("WordApi", "1.5")`. -/
  isSetSupported : σ → Bool
  /-- The effect of one request. -/
  step : Call → σ → Except Thrown Unit × σ
  /-- The read `sections.items.length`. -/
  sectionCount : σ → Nat
  /-- The read `headerRange.text`. -/
  headerText : σ → String
  /-- The read `body.text`. -/
  bodyText : σ → String
  /-- The read `found.items.length`. -/
  foundCount : σ → Nat

/-- Everything one run can change: the host, the requests sent so far (oldest
first), the texts passed to `updateStatus` (oldest first), the `textContent`
of the status element when it exists, the `disabled` flag of the button when
it exists. -/
structure World (σ : Type) where
  host : σ
  calls : List Call
  published : List String
  statusEl : Option String
  button : Option Bool

/-- A computation that may throw; the world survives a throw. -/
def M (σ α : Type) : Type := World σ → Except Thrown α × World σ

/-- Return without effect. -/
def M.ret {σ α : Type} (a : α) : M σ α := fun w => (.ok a, w)

/-- Sequencing: a throw of the first part skips the second. -/
def M.andThen {σ α β : Type} (m : M σ α) (f : α → M σ β) : M σ β := fun w =>
  match m w with
  | (.ok a, w1) => f a w1
  | (.error e, w1) => (.error e, w1)

instance {σ : Type} : Monad (M σ) where
  pure := M.ret
  bind := M.andThen

/-- The statement `try { body } catch (e) { handler }`. -/
def tryCatch {σ α : Type} (body : M σ α) (handler : Thrown → M σ α) : M σ α := fun w =>
  match body w with
  | (.ok a, w1) => (.ok a, w1)
  | (.error e, w1) => handler e w1

/-- Send one request to the host and record it. -/
def call {σ : Type} (h : Host σ) (c : Call) : M σ Unit := fun w =>
  let r := h.step c w.host
  (r.1, { w with host := r.2, calls := w.calls ++ [c] })

/-- Read a property of the host. -/
def readHost {σ α : Type} (f : σ → α) : M σ α := fun w => (.ok (f w.host), w)

/-- The JavaScript test `s.includes(t)` on character lists. -/
def includesList : List Char → List Char → Bool
  | [], t => t.isEmpty
  | c :: cs, t => t.isPrefixOf (c :: cs) || includesList cs t

/-- The JavaScript test `s.includes(t)`. -/
def includes (s t : String) : Bool := includesList s.data t.data

/-- The function `insertHeader(context)`. -/
def insertHeader {σ : Type} (h : Host σ) : M σ Unit :=
  tryCatch
    (do
      call h .loadSections
      call h .sync
      if (← readHost h.sectionCount) = 0 then
        return
      call h .loadHeaderText
      call h .sync
      if !(includes (← readHost h.headerText) HEADER_TEXT) then
        call h (.insertParagraph HEADER_TEXT)
        call h .sync)
    (fun _ => pure ())

/-- The callback of `found.items.forEach`, over the indices of the ranges. -/
def forEachRange {σ : Type} (h : Host σ) (label : String) : List Nat → M σ Unit
  | [] => pure ()
  | i :: is => do
    call h (.insertText i label)
    forEachRange h label is

/-- The body of the `for` loop of `performRedaction` for one match: the new
value of `count`. -/
def redactOne {σ : Type} (h : Host σ) (m : Match) (count : Nat) : M σ Nat :=
  tryCatch
    (do
      call h (.search m.value)
      call h .sync
      let n ← readHost h.foundCount
      if n = 0 then
        return count
      forEachRange h (REDACTION_LABELS m.kind) (List.range n)
      call h .sync
      return count + 1)
    (fun _ => pure count)

/-- The `for` loop of `performRedaction` from a given value of `count`. -/
def performRedactionFrom {σ : Type} (h : Host σ) : List Match → Nat → M σ Nat
  | [], count => pure count
  | m :: ms, count => do
    let count ← redactOne h m count
    performRedactionFrom h ms count

/-- The function `performRedaction(context, matches)`. -/
def performRedaction {σ : Type} (h : Host σ) (ms : List Match) : M σ Nat :=
  performRedactionFrom h ms 0

/-- A document whose requests all succeed: mutations are queued and take
effect at the next synchronisation. -/
structure Doc where
  /-- Number of sections. -/
  sections : Nat
  /-- Paragraphs of the primary header of the first section. -/
  header : List String
  /-- Text of the body. -/
  body : String
  /-- Whether revisions are tracked. -/
  tracking : Bool
  /-- Whether the host supports revision tracking. -/
  supportsTracking : Bool
  /-- Paragraphs queued for insertion at the start of the header. -/
  queued : List String
  /-- Whether enabling tracking is queued. -/
  queuedTracking : Bool
  deriving DecidableEq, Repr

/-- The text of a range over paragraphs: they are separated by a carriage return. -/
def joinParagraphs : List String → List Char
  | [] => []
  | [p] => p.data
  | p :: q :: ps => p.data ++ '\r' :: joinParagraphs (q :: ps)

/-- The effect of a request on a `Doc`. -/
def Doc.step (c : Call) (d : Doc) : Doc :=
  match c with
  | .setTrackRevisions => { d with queuedTracking := true }
  | .insertParagraph text => { d with queued := d.queued ++ [text] }
  | .sync =>
    { d with header := d.queued.foldl (fun hd p => p :: hd) d.header,
             tracking := d.tracking || d.queuedTracking,
             queued := [], queuedTracking := false }
  | .runEnd =>
    { d with header := d.queued.foldl (fun hd p => p :: hd) d.header,
             tracking := d.tracking || d.queuedTracking,
             queued := [], queuedTracking := false }
  | _ => d

/-- The host of a `Doc`; its body is never searched successfully: a search
finds no range. -/
def docHost : Host Doc where
  isSetSupported := fun d => d.supportsTracking
  step := fun c d => (.ok (), d.step c)
  sectionCount := fun d => d.sections
  headerText := fun d => String.mk (joinParagraphs d.header)
  bodyText := fun d => d.body
  foundCount := fun _ => 0

/-- A fresh world around a host state. -/
def World.init {σ : Type} (s : σ) : World σ :=
  { host := s, calls := [], published := [], statusEl := some "", button := some false }

/-- Number of positions of `s` at which `t` starts. -/
def countOccurrences (t : List Char) : List Char → Nat
  | [] => if t.isEmpty then 1 else 0
  | c :: cs => (if t.isPrefixOf (c :: cs) then 1 else 0) + countOccurrences t cs

/-! ## Specification-side definitions

The definitions of this section follow the words of the specification and
are compared below with the definitions taken from the source. -/

/-- A list with the later duplicates of every element removed, the first
occurrence kept. -/
def keepFirst : List String → List String
  | [] => []
  | x :: xs => x :: (keepFirst xs).filter (fun y => y != x)

/-- The matches of one pattern family as the specification describes them:
the non-overlapping left-to-right matches, later duplicates removed. -/
def family (text : String) (regex : Re) (kind : Kind) : List Match :=
  (keepFirst (matchAll regex text)).map (fun val => { value := val, kind := kind })

/-- A count followed by its noun, with the suffix "s" unless the count is 1. -/
def nounPhrase (count : Nat) (noun : String) : String :=
  toString count ++ " " ++ noun ++ (if count = 1 then "" else "s")

/-- The kinds the parenthetical clause lists: those with a count above 0, in
the order email, phone, ssn. -/
def listedKinds (stats : Stats) : List (Nat × String) :=
  [(stats.byKind.email, "email"), (stats.byKind.phone, "phone"),
    (stats.byKind.ssn, "SSN")].filter (fun p => decide (0 < p.1))

/-- The parenthetical clause of the message: absent when no kind is listed. -/
def parenthetical (stats : Stats) : String :=
  match listedKinds stats with
  | [] => ""
  | ks => " (" ++ ", ".intercalate (ks.map (fun p => nounPhrase p.1 p.2)) ++ ")"

/-- The text `pre ++ m ++ post` contains, after `pre`, the substring `m`
matching the pattern `r`: some way of running `r` at that position consumes
exactly `m`. -/
def matchesAt (r : Re) (pre m post : List Char) : Prop :=
  (m, post) ∈ r.run pre.getLast? (m ++ post)

instance (r : Re) (pre m post : List Char) : Decidable (matchesAt r pre m post) := by
  unfold matchesAt
  exact inferInstance

/-- The words a pattern can consume, word boundaries left aside. -/
def Re.Denotes : Re → List Char → Prop
  | .set p, m => ∃ c, m = [c] ∧ p c = true
  | .wordB, m => m = []
  | .seq a b, m => ∃ m1 m2, m = m1 ++ m2 ∧ a.Denotes m1 ∧ b.Denotes m2
  | .opt a, m => m = [] ∨ a.Denotes m
  | .rep p lo hi, m =>
    lo ≤ m.length ∧ (∀ n, hi = some n → m.length ≤ n) ∧ ∀ c ∈ m, p c = true

/-- Whether some character class of the pattern accepts `c`. -/
def Re.mayUse : Re → Char → Bool
  | .set p, c => p c
  | .wordB, _ => false
  | .seq a b, c => a.mayUse c || b.mayUse c
  | .opt a, c => a.mayUse c
  | .rep p _ _, c => p c

/-- Replacing the ranges of one match on the host alone: whether every
replacement completed, and the host state reached. -/
def insertAll {σ : Type} (h : Host σ) (label : String) : List Nat → σ → Bool × σ
  | [], s => (true, s)
  | i :: is, s =>
    match h.step (.insertText i label) s with
    | (.ok _, s1) => insertAll h label is s1
    | (.error _, s1) => (false, s1)

/-- What happens to one match on the host alone: whether its search returned
at least one range and its search, replacements and both synchronisations
completed without throwing, and the host state reached. -/
def attempt {σ : Type} (h : Host σ) (m : Match) (s : σ) : Bool × σ :=
  match h.step (.search m.value) s with
  | (.error _, s1) => (false, s1)
  | (.ok _, s1) =>
    match h.step .sync s1 with
    | (.error _, s2) => (false, s2)
    | (.ok _, s2) =>
      if h.foundCount s2 = 0 then (false, s2)
      else
        match insertAll h (REDACTION_LABELS m.kind) (List.range (h.foundCount s2)) s2 with
        | (false, s3) => (false, s3)
        | (true, s3) =>
          match h.step .sync s3 with
          | (.error _, s4) => (false, s4)
          | (.ok _, s4) => (true, s4)

/-- The outcome of every match of the list, in list order, each on the host
state its predecessors left. -/
def outcomes {σ : Type} (h : Host σ) : List Match → σ → List Bool
  | [], _ => []
  | m :: ms, s => (attempt h m s).1 :: outcomes h ms (attempt h m s).2

/-- The values searched for by the requests of a record, in order. -/
def searchesOf (calls : List Call) : List String :=
  calls.filterMap fun c =>
    match c with
    | .search v => some v
    | _ => none

/-- A `Doc` after a synchronisation with no paragraph queued. -/
def Doc.flushed (d : Doc) : Doc :=
  { d with tracking := d.tracking || d.queuedTracking, queued := [], queuedTracking := false }

theorem foldl_bump (ms : List Match) (c : ByKind) :
    ms.foldl (fun counts m => bump counts m.kind) c =
      { email := c.email + ms.countP (fun m => m.kind = .email),
        phone := c.phone + ms.countP (fun m => m.kind = .phone),
        ssn := c.ssn + ms.countP (fun m => m.kind = .ssn) } := by
  induction ms generalizing c with
  | nil => simp
  | cons m ms ih =>
    rw [List.foldl_cons, ih]
    cases hk : m.kind <;> simp [bump, hk, List.countP_cons] <;> omega

theorem countP_kinds (ms : List Match) :
    ms.countP (fun m => m.kind = .email) + ms.countP (fun m => m.kind = .phone) +
      ms.countP (fun m => m.kind = .ssn) = ms.length := by
  induction ms with
  | nil => simp
  | cons m ms ih =>
    cases hk : m.kind <;> simp [hk, List.countP_cons] <;> omega

/-- C1: for every list of matches, `getStats` returns the length of the list as
`total`, the three counters add up to `total`, and each counter is the number
of matches of its kind (so it is 0 for a kind that does not occur). -/
theorem getStats_total_sum (ms : List Match) :
    (getStats ms).total = ms.length ∧
    (getStats ms).byKind.email + (getStats ms).byKind.phone + (getStats ms).byKind.ssn
      = (getStats ms).total ∧
    (getStats ms).byKind.email = ms.countP (fun m => m.kind = .email) ∧
    (getStats ms).byKind.phone = ms.countP (fun m => m.kind = .phone) ∧
    (getStats ms).byKind.ssn = ms.countP (fun m => m.kind = .ssn) ∧
    (getStats []).byKind = { email := 0, phone := 0, ssn := 0 } := by
  have h := countP_kinds ms
  refine ⟨rfl, ?_, by simp [getStats, foldl_bump], by simp [getStats, foldl_bump],
    by simp [getStats, foldl_bump], rfl⟩
  simp only [getStats, foldl_bump]
  omega

/-- C5 as the claim states it fails: the message built for one email, one
phone and one SSN without a note is not the text that ends in a full stop. -/
theorem buildMessage_no_final_full_stop :
    buildMessage { total := 3, byKind := { email := 1, phone := 1, ssn := 1 } } "" ≠
      "Redaction complete. Replaced 3 items (1 email, 1 phone, 1 SSN)." := by
  decide

/-- C5 amended: the message built for one email, one phone and one SSN without
a note ends with the closing parenthesis, no full stop follows it. -/
theorem buildMessage_example :
    buildMessage { total := 3, byKind := { email := 1, phone := 1, ssn := 1 } } "" =
      "Redaction complete. Replaced 3 items (1 email, 1 phone, 1 SSN)" := by
  decide

theorem parenthetical_ne_empty (xs : String) : " (" ++ xs ++ ")" ≠ "" := by
  intro h
  have := congrArg String.length h
  simp only [String.length_append] at this
  have h2 : " (".length = 2 := by decide
  have h0 : "".length = 0 := by decide
  omega

/-- C6: for every stats value and note, the message is the sentence about the
total, then the parenthetical clause that lists exactly the kinds with a count
above 0 in the order email, phone, ssn, each as count, noun and "s" unless the
count is 1, joined by ", ", then the note; the clause is absent exactly when
the three counts are 0. -/
theorem buildMessage_parenthetical (stats : Stats) (note : String) :
    buildMessage stats note =
      "Redaction complete. Replaced " ++ toString stats.total ++ " item" ++
        (if stats.total = 1 then "" else "s") ++ parenthetical stats ++
        (if note = "" then "" else ". " ++ note) ∧
    (parenthetical stats = "" ↔
      stats.byKind.email = 0 ∧ stats.byKind.phone = 0 ∧ stats.byKind.ssn = 0) := by
  obtain ⟨total, ⟨e, p, s⟩⟩ := stats
  constructor
  · have h1 : ∀ x : String, " " ++ ("email" ++ x) = " email" ++ x := fun x => by
      rw [← String.append_assoc]; rfl
    have h2 : ∀ x : String, " " ++ ("phone" ++ x) = " phone" ++ x := fun x => by
      rw [← String.append_assoc]; rfl
    have h3 : ∀ x : String, " " ++ ("SSN" ++ x) = " SSN" ++ x := fun x => by
      rw [← String.append_assoc]; rfl
    by_cases he : e = 0 <;> by_cases hp : p = 0 <;> by_cases hs : s = 0 <;>
      by_cases hn : note = "" <;> by_cases ht : total = 1 <;>
      simp [-String.reduceAppend, buildMessage, parenthetical, listedKinds, nounPhrase, he, hp,
        hs, hn, ht, Nat.pos_iff_ne_zero, String.intercalate, String.intercalate.go,
        String.append_assoc, h1, h2, h3]
  · by_cases he : e = 0 <;> by_cases hp : p = 0 <;> by_cases hs : s = 0 <;>
      simp [parenthetical, listedKinds, he, hp, hs, Nat.pos_iff_ne_zero, parenthetical_ne_empty]

/-! ## Theorems: the matcher -/

theorem repRun_sound (p : Char → Bool) (rest : List Char) :
    ∀ (lo : Nat) (hi : Option Nat) (m r : List Char), (m, r) ∈ repRun p lo hi rest →
      rest = m ++ r ∧ lo ≤ m.length ∧ (∀ n, hi = some n → m.length ≤ n) ∧
        ∀ c ∈ m, p c = true := by
  induction rest with
  | nil =>
    intro lo hi m r h
    simp only [repRun] at h
    split at h
    · simp at h
      obtain ⟨rfl, rfl⟩ := h
      simp_all
    · simp at h
  | cons c cs ih =>
    intro lo hi m r h
    simp only [repRun, List.mem_append] at h
    rcases h with h | h
    · split at h
      · rename_i hc
        simp only [List.mem_map] at h
        obtain ⟨⟨m1, r1⟩, hmem, heq⟩ := h
        simp only [Prod.mk.injEq] at heq
        obtain ⟨rfl, rfl⟩ := heq
        obtain ⟨h1, h2, h3, h4⟩ := ih _ _ _ _ hmem
        simp only [Bool.and_eq_true, bne_iff_ne, ne_eq] at hc
        refine ⟨by simp [h1], by simp; omega, ?_, ?_⟩
        · intro n hn
          subst hn
          cases n with
          | zero => exact absurd rfl hc.2
          | succ n =>
            have := h3 n (by simp)
            simp
            omega
        · intro d hd
          simp only [List.mem_cons] at hd
          rcases hd with rfl | hd
          · exact hc.1
          · exact h4 d hd
      · simp at h
    · split at h
      · simp at h
        obtain ⟨rfl, rfl⟩ := h
        simp_all
      · simp at h

theorem run_sound (r : Re) :
    ∀ (prev : Option Char) (rest m post : List Char), (m, post) ∈ r.run prev rest →
      rest = m ++ post ∧ r.Denotes m := by
  induction r with
  | set p =>
    intro prev rest m post h
    cases rest with
    | nil => simp [Re.run] at h
    | cons c cs =>
      simp only [Re.run] at h
      split at h
      · simp at h
        obtain ⟨rfl, rfl⟩ := h
        exact ⟨rfl, c, rfl, by assumption⟩
      · simp at h
  | wordB =>
    intro prev rest m post h
    simp only [Re.run] at h
    split at h
    · simp at h
      obtain ⟨rfl, rfl⟩ := h
      exact ⟨rfl, rfl⟩
    · simp at h
  | seq a b iha ihb =>
    intro prev rest m post h
    simp only [Re.run, List.mem_flatMap, List.mem_map] at h
    obtain ⟨⟨m1, r1⟩, h1, ⟨m2, r2⟩, h2, heq⟩ := h
    simp only [Prod.mk.injEq] at heq
    obtain ⟨rfl, rfl⟩ := heq
    obtain ⟨e1, d1⟩ := iha _ _ _ _ h1
    obtain ⟨e2, d2⟩ := ihb _ _ _ _ h2
    simp only at e2
    exact ⟨by rw [e1, e2, List.append_assoc], m1, m2, rfl, d1, d2⟩
  | opt a iha =>
    intro prev rest m post h
    simp only [Re.run, List.mem_append, List.mem_singleton, Prod.mk.injEq] at h
    rcases h with h | ⟨rfl, rfl⟩
    · obtain ⟨e1, d1⟩ := iha _ _ _ _ h
      exact ⟨e1, Or.inr d1⟩
    · exact ⟨rfl, Or.inl rfl⟩
  | rep p lo hi =>
    intro prev rest m post h
    simp only [Re.run] at h
    exact repRun_sound p rest lo hi m post h

theorem denotes_mayUse (r : Re) :
    ∀ (m : List Char), r.Denotes m → ∀ c ∈ m, r.mayUse c = true := by
  induction r with
  | set p =>
    rintro m ⟨c, rfl, hc⟩ d hd
    simp only [List.mem_singleton] at hd
    subst hd
    exact hc
  | wordB =>
    rintro m rfl d hd
    simp at hd
  | seq a b iha ihb =>
    rintro m ⟨m1, m2, rfl, h1, h2⟩ d hd
    simp only [List.mem_append] at hd
    simp only [Re.mayUse, Bool.or_eq_true]
    rcases hd with hd | hd
    · exact Or.inl (iha m1 h1 d hd)
    · exact Or.inr (ihb m2 h2 d hd)
  | opt a iha =>
    rintro m (rfl | h) d hd
    · simp at hd
    · exact iha m h d hd
  | rep p lo hi =>
    rintro m ⟨_, _, h⟩ d hd
    exact h d hd

theorem email_has_at (m : List Char) (h : emailRe.Denotes m) : '@' ∈ m := by
  simp only [emailRe, Re.Denotes, Re.chr] at h
  obtain ⟨m1, m2, rfl, -, m3, m4, rfl, ⟨c, rfl, hc⟩, -⟩ := h
  simp only [beq_iff_eq] at hc
  subst hc
  simp

theorem digits_countP (m : List Char) (h : ∀ c ∈ m, isDigit c = true) :
    m.countP isDigit = m.length :=
  List.countP_eq_length.mpr h

theorem phone_digits (m : List Char) (h : phoneRe.Denotes m) : 10 ≤ m.countP isDigit := by
  simp only [phoneRe, Re.Denotes] at h
  obtain ⟨b1, m1, rfl, -, a, m2, rfl, -, ar, m3, rfl, har, d3, m4, rfl, hd3, s1, m5, rfl, -,
    d4, b2, rfl, hd4, -⟩ := h
  obtain ⟨p1, m6, rfl, -, a3, m7, rfl, ha3, -⟩ := har
  have e1 := digits_countP a3 ha3.2.2
  have e2 := digits_countP d3 hd3.2.2
  have e3 := digits_countP d4 hd4.2.2
  have l1 := ha3.1
  have l2 := hd3.1
  have l3 := hd4.1
  simp only [List.countP_append]
  omega

theorem ssn_digits (m : List Char) (h : ssnRe.Denotes m) : m.countP isDigit = 9 := by
  simp only [ssnRe, Re.Denotes, Re.chr] at h
  obtain ⟨b1, m1, rfl, hb1, d3, m2, rfl, hd3, c1, m3, rfl, ⟨x1, rfl, hx1⟩, d2, m4, rfl, hd2,
    c2, m5, rfl, ⟨x2, rfl, hx2⟩, d4, b2, rfl, hd4, hb2⟩ := h
  simp only [beq_iff_eq] at hx1 hx2
  subst hx1 hx2 hb1 hb2
  have e1 := digits_countP d3 hd3.2.2
  have e2 := digits_countP d2 hd2.2.2
  have e3 := digits_countP d4 hd4.2.2
  have u1 := hd3.2.1 3 rfl
  have u2 := hd2.2.1 2 rfl
  have u3 := hd4.2.1 4 rfl
  have l1 := hd3.1
  have l2 := hd2.1
  have l3 := hd4.1
  have hz : List.countP isDigit ['-'] = 0 := by decide
  simp only [List.countP_append, hz, List.countP_nil]
  omega

theorem phone_no_at (m : List Char) (h : phoneRe.Denotes m) : '@' ∉ m := by
  intro hm
  have := denotes_mayUse phoneRe m h '@' hm
  revert this
  decide

theorem ssn_no_at (m : List Char) (h : ssnRe.Denotes m) : '@' ∉ m := by
  intro hm
  have := denotes_mayUse ssnRe m h '@' hm
  revert this
  decide

theorem lastOf_cons (prev : Option Char) (c : Char) (pre : List Char) :
    lastOf prev (c :: pre) = lastOf (some c) pre := by
  cases pre with
  | nil => simp [lastOf]
  | cons d ds =>
    have h : ∃ x, (d :: ds).getLast? = some x :=
      ⟨(d :: ds).getLast (by simp), List.getLast?_eq_getLast _ (by simp)⟩
    obtain ⟨x, hx⟩ := h
    simp [lastOf, List.getLast?_cons_cons, hx]

theorem exec_some (r : Re) (prev : Option Char) (rest m : List Char)
    (h : r.exec prev rest = some m) : ∃ post, (m, post) ∈ r.run prev rest := by
  unfold Re.exec at h
  cases hr : r.run prev rest with
  | nil => simp [hr] at h
  | cons x xs =>
    simp only [hr, List.head?_cons, Option.map_some', Option.some.injEq] at h
    exact ⟨x.2, by rw [← h]; simp⟩

/-- Every match the iteration reports is a substring of the input at which
the pattern matches. -/
theorem matchAllGo_sound (r : Re) (rest : List Char) :
    ∀ (prev : Option Char) (skip : Nat) (m : List Char), m ∈ matchAllGo r prev rest skip →
      ∃ pre post, rest = pre ++ m ++ post ∧
        (m, post) ∈ r.run (lastOf prev pre) (m ++ post) := by
  induction rest with
  | nil =>
    intro prev skip m h
    simp only [matchAllGo] at h
    split at h
    · split at h
      · rename_i m0 he
        simp only [List.mem_singleton] at h
        subst h
        obtain ⟨post, hp⟩ := exec_some r prev [] m he
        obtain ⟨e, -⟩ := run_sound r prev [] m post hp
        have hm : m = [] := by
          cases m with
          | nil => rfl
          | cons a b => simp at e
        subst hm
        have hpost : post = [] := by simpa using e.symm
        subst hpost
        exact ⟨[], [], rfl, by simpa [lastOf] using hp⟩
      · simp at h
    · simp at h
  | cons c cs ih =>
    intro prev skip m h
    cases skip with
    | zero =>
      simp only [matchAllGo] at h
      split at h
      · rename_i m0 he
        simp only [List.mem_cons] at h
        rcases h with rfl | h
        · obtain ⟨post, hp⟩ := exec_some r prev (c :: cs) m he
          obtain ⟨e, -⟩ := run_sound r prev (c :: cs) m post hp
          refine ⟨[], post, by simpa using e, ?_⟩
          rw [← e]
          simpa [lastOf] using hp
        · obtain ⟨pre, post, e, hp⟩ := ih _ _ _ h
          exact ⟨c :: pre, post, by simp [e], by rw [lastOf_cons]; exact hp⟩
      · obtain ⟨pre, post, e, hp⟩ := ih _ _ _ h
        exact ⟨c :: pre, post, by simp [e], by rw [lastOf_cons]; exact hp⟩
    | succ k =>
      simp only [matchAllGo] at h
      obtain ⟨pre, post, e, hp⟩ := ih _ _ _ h
      exact ⟨c :: pre, post, by simp [e], by rw [lastOf_cons]; exact hp⟩

theorem mem_keepFirst (l : List String) : ∀ x, x ∈ keepFirst l ↔ x ∈ l := by
  induction l with
  | nil => simp [keepFirst]
  | cons a l ih =>
    intro x
    simp only [keepFirst, List.mem_cons, List.mem_filter, ih, bne_iff_ne, ne_eq]
    by_cases hx : x = a <;> simp [hx]

theorem nodup_keepFirst (l : List String) : (keepFirst l).Nodup := by
  induction l with
  | nil => simp [keepFirst]
  | cons a l ih =>
    simp only [keepFirst, List.nodup_cons, List.mem_filter, bne_iff_ne, ne_eq, not_and,
      not_not]
    exact ⟨fun _ => trivial, ih.filter _⟩

theorem foldl_addMatchesStep (kind : Kind) (l : List String) :
    ∀ (seen : List String) (results : List Match),
      (l.foldl (addMatchesStep kind) (seen, results)).2 =
        results ++ ((keepFirst l).filter (fun v => !seen.contains v)).map
          (fun val => { value := val, kind := kind }) := by
  induction l with
  | nil => simp [keepFirst]
  | cons x xs ih =>
    intro seen results
    rw [List.foldl_cons]
    by_cases hx : x ∈ seen
    · have hstep : addMatchesStep kind (seen, results) x = (seen, results) := by
        simp [addMatchesStep, hx]
      rw [hstep, ih]
      congr 2
      have hc : (!seen.contains x) = false := by simp [hx]
      simp only [keepFirst, List.filter_cons, hc, Bool.false_eq_true, if_false,
        List.filter_filter]
      apply List.filter_congr
      intro v _
      by_cases hv : v ∈ seen
      · simp [hv]
      · have : v ≠ x := fun e => hv (e ▸ hx)
        simp [hv, this]
    · have hstep : addMatchesStep kind (seen, results) x =
          (x :: seen, results ++ [{ value := x, kind := kind }]) := by
        simp [addMatchesStep, hx]
      rw [hstep, ih]
      have hc : (!seen.contains x) = true := by simp [hx]
      simp only [keepFirst, List.filter_cons, hc, if_true, List.filter_filter, List.map_cons,
        List.append_assoc, List.singleton_append]
      congr 3
      apply List.filter_congr
      intro v _
      by_cases hv : v = x
      · simp [hv, hx]
      · have hv2 : ¬ x = v := fun e => hv e.symm
        simp [hv, hv2]

theorem addMatches_eq (text : String) (results : List Match) (regex : Re) (kind : Kind) :
    addMatches text results regex kind = results ++ family text regex kind := by
  unfold addMatches family
  rw [foldl_addMatchesStep]
  simp

theorem findSensitivePatterns_eq (text : String) :
    findSensitivePatterns text =
      family text emailRe .email ++ family text phoneRe .phone ++ family text ssnRe .ssn := by
  simp [findSensitivePatterns, addMatches_eq]

theorem mem_matchAll (r : Re) (text v : String) (h : v ∈ matchAll r text) :
    ∃ pre post, text.data = pre ++ v.data ++ post ∧ matchesAt r pre v.data post := by
  simp only [matchAll, List.mem_map] at h
  obtain ⟨m, hm, rfl⟩ := h
  obtain ⟨pre, post, e, hp⟩ := matchAllGo_sound r text.data none 0 m hm
  refine ⟨pre, post, e, ?_⟩
  have hl : lastOf none pre = pre.getLast? := by
    unfold lastOf
    cases pre.getLast? <;> rfl
  rw [hl] at hp
  exact hp

theorem mem_matchAll_denotes (r : Re) (text v : String) (h : v ∈ matchAll r text) :
    r.Denotes v.data := by
  obtain ⟨pre, post, -, hp⟩ := mem_matchAll r text v h
  exact (run_sound r _ _ _ _ hp).2

theorem family_values (text : String) (regex : Re) (kind : Kind) :
    (family text regex kind).map Match.value = keepFirst (matchAll regex text) := by
  simp [family, Function.comp_def]

/-- C2: for every text, no two entries of `findSensitivePatterns(text)` have
the same value, across the three kinds. -/
theorem findSensitivePatterns_values_nodup (text : String) :
    ((findSensitivePatterns text).map Match.value).Nodup := by
  rw [findSensitivePatterns_eq]
  simp only [List.map_append, family_values]
  rw [List.nodup_append, List.nodup_append]
  refine ⟨⟨nodup_keepFirst _, nodup_keepFirst _, ?_⟩, nodup_keepFirst _, ?_⟩
  · intro v hv hv2
    rw [mem_keepFirst] at hv hv2
    exact phone_no_at _ (mem_matchAll_denotes _ _ _ hv2)
      (email_has_at _ (mem_matchAll_denotes _ _ _ hv))
  · intro v hv hv2
    rw [mem_keepFirst] at hv2
    have h3 := ssn_digits _ (mem_matchAll_denotes _ _ _ hv2)
    rw [List.mem_append, mem_keepFirst, mem_keepFirst] at hv
    rcases hv with hv | hv
    · exact ssn_no_at _ (mem_matchAll_denotes _ _ _ hv2)
        (email_has_at _ (mem_matchAll_denotes _ _ _ hv))
    · have h2 := phone_digits _ (mem_matchAll_denotes _ _ _ hv)
      omega

theorem bind_apply {σ α β : Type} (m : M σ α) (f : α → M σ β) (w : World σ) :
    (m >>= f) w =
      match m w with
      | (.ok a, w1) => f a w1
      | (.error e, w1) => (.error e, w1) := rfl

theorem pure_apply {σ α : Type} (a : α) (w : World σ) :
    (pure a : M σ α) w = (.ok a, w) := rfl

theorem searchesOf_append (a b : List Call) :
    searchesOf (a ++ b) = searchesOf a ++ searchesOf b := by
  simp [searchesOf, List.filterMap_append]

theorem forEachRange_spec {σ : Type} (h : Host σ) (label : String) (is : List Nat) :
    ∀ w : World σ, ∃ r w1, forEachRange h label is w = (r, w1) ∧
      w1.host = (insertAll h label is w.host).2 ∧
      searchesOf w1.calls = searchesOf w.calls ∧
      ((r = .ok () ∧ (insertAll h label is w.host).1 = true) ∨
        ((∃ e, r = .error e) ∧ (insertAll h label is w.host).1 = false)) := by
  induction is with
  | nil =>
    intro w
    exact ⟨.ok (), w, rfl, rfl, rfl, Or.inl ⟨rfl, rfl⟩⟩
  | cons i is ih =>
    intro w
    simp only [forEachRange, bind_apply, call, insertAll]
    rcases h1 : h.step (.insertText i label) w.host with ⟨r1, s1⟩
    cases r1 with
    | error e =>
      refine ⟨.error e, _, rfl, rfl, ?_, Or.inr ⟨⟨e, rfl⟩, rfl⟩⟩
      simp [searchesOf_append, searchesOf]
    | ok u =>
      simp only
      obtain ⟨r, w1, e1, e2, e3, e4⟩ := ih
        { w with host := s1, calls := w.calls ++ [.insertText i label] }
      refine ⟨r, w1, e1, e2, ?_, e4⟩
      rw [e3]
      simp [searchesOf_append, searchesOf]

theorem redactOne_spec {σ : Type} (h : Host σ) (m : Match) (count : Nat) (w : World σ) :
    ∃ w1, redactOne h m count w =
        (.ok (count + if (attempt h m w.host).1 = true then 1 else 0), w1) ∧
      w1.host = (attempt h m w.host).2 ∧
      searchesOf w1.calls = searchesOf w.calls ++ [m.value] := by
  have hs : ∀ l : List Call, searchesOf (w.calls ++ [.search m.value] ++ l) =
      searchesOf w.calls ++ [m.value] ++ searchesOf l := by
    intro l
    simp [searchesOf_append, searchesOf]
  rcases h1 : h.step (.search m.value) w.host with ⟨r1, s1⟩
  cases r1 with
  | error e =>
    simp only [redactOne, tryCatch, bind_apply, pure_apply, call, readHost, attempt, h1]
    refine ⟨_, rfl, rfl, ?_⟩
    simp [searchesOf]
  | ok u1 =>
    rcases h2 : h.step .sync s1 with ⟨r2, s2⟩
    cases r2 with
    | error e =>
      simp only [redactOne, tryCatch, bind_apply, pure_apply, call, readHost, attempt, h1, h2]
      refine ⟨_, rfl, rfl, ?_⟩
      simp [searchesOf, searchesOf_append]
    | ok u2 =>
      by_cases hn : h.foundCount s2 = 0
      · simp only [redactOne, tryCatch, bind_apply, pure_apply, call, readHost, attempt, h1,
          h2, hn, if_true]
        refine ⟨_, rfl, rfl, ?_⟩
        simp [searchesOf, searchesOf_append]
      · obtain ⟨r, w1, e1, e2, e3, e4⟩ := forEachRange_spec h (REDACTION_LABELS m.kind)
          (List.range (h.foundCount s2))
          { w with host := s2, calls := w.calls ++ [.search m.value] ++ [.sync] }
        have hs1 : searchesOf w1.calls = searchesOf w.calls ++ [m.value] := by
          rw [e3]
          simp [searchesOf, searchesOf_append]
        rcases hins : insertAll h (REDACTION_LABELS m.kind) (List.range (h.foundCount s2)) s2
          with ⟨b, s3⟩
        simp only [hins] at e2 e4
        rcases e4 with ⟨rfl, rfl⟩ | ⟨⟨e, rfl⟩, rfl⟩
        · rcases h3 : h.step .sync s3 with ⟨r3, s4⟩
          have h3w : h.step .sync w1.host = (r3, s4) := by rw [e2]; exact h3
          cases r3 with
          | error e =>
            simp only [redactOne, tryCatch, bind_apply, pure_apply, call, readHost, attempt, h1,
              h2, hn, if_false, e1, hins, h3, h3w]
            refine ⟨_, rfl, rfl, ?_⟩
            show searchesOf (w1.calls ++ [Call.sync]) = searchesOf w.calls ++ [m.value]
            rw [searchesOf_append, hs1]
            simp [searchesOf]
          | ok u3 =>
            simp only [redactOne, tryCatch, bind_apply, pure_apply, call, readHost, attempt, h1,
              h2, hn, if_false, e1, hins, h3, h3w]
            refine ⟨_, rfl, rfl, ?_⟩
            show searchesOf (w1.calls ++ [Call.sync]) = searchesOf w.calls ++ [m.value]
            rw [searchesOf_append, hs1]
            simp [searchesOf]
        · simp only [redactOne, tryCatch, bind_apply, pure_apply, call, readHost, attempt, h1,
            h2, hn, if_false, e1, hins]
          exact ⟨_, rfl, e2, hs1⟩

theorem performRedactionFrom_spec {σ : Type} (h : Host σ) (ms : List Match) :
    ∀ (count : Nat) (w : World σ), ∃ w1,
      performRedactionFrom h ms count w =
        (.ok (count + (outcomes h ms w.host).count true), w1) ∧
      searchesOf w1.calls = searchesOf w.calls ++ ms.map Match.value := by
  induction ms with
  | nil =>
    intro count w
    exact ⟨w, rfl, by simp⟩
  | cons m ms ih =>
    intro count w
    obtain ⟨w1, e1, e2, e3⟩ := redactOne_spec h m count w
    obtain ⟨w2, f1, f2⟩ := ih (count + if (attempt h m w.host).1 = true then 1 else 0) w1
    refine ⟨w2, ?_, ?_⟩
    · simp only [performRedactionFrom, bind_apply, e1, f1, outcomes, e2, List.count_cons]
      congr 2
      cases (attempt h m w.host).1
      · simp
      · simp
        omega
    · rw [f2, e3]
      simp

theorem outcomes_length {σ : Type} (h : Host σ) (ms : List Match) :
    ∀ s : σ, (outcomes h ms s).length = ms.length := by
  induction ms with
  | nil => intro s; rfl
  | cons m ms ih => intro s; simp [outcomes, ih]

theorem count_true_false (l : List Bool) : l.count true + l.count false = l.length := by
  induction l with
  | nil => rfl
  | cons b l ih => cases b <;> (simp [List.count_cons]; omega)

/-- C7: for every host and every match list, `performRedaction` does not
throw; it returns the number of matches whose search returned at least one
range and whose search, replacements and both synchronisations completed; it
searches for the values of the matches in list order; and the matches that
are not counted make up the rest of the list, so one failing match among
otherwise redacted ones gives the number of matches minus one. -/
theorem performRedaction_count {σ : Type} (h : Host σ) (ms : List Match) (w : World σ) :
    ∃ w1, performRedaction h ms w = (.ok ((outcomes h ms w.host).count true), w1) ∧
      searchesOf w1.calls = searchesOf w.calls ++ ms.map Match.value ∧
      (outcomes h ms w.host).length = ms.length ∧
      (outcomes h ms w.host).count true =
        ms.length - (outcomes h ms w.host).count false := by
  obtain ⟨w1, e1, e2⟩ := performRedactionFrom_spec h ms 0 w
  refine ⟨w1, by simpa [performRedaction] using e1, e2, outcomes_length h ms _, ?_⟩
  have := count_true_false (outcomes h ms w.host)
  rw [outcomes_length] at this
  omega

/-! ## Theorems: the header on a well-behaved document -/

theorem includesList_append_self (t rest : List Char) : includesList (t ++ rest) t = true := by
  cases h : t ++ rest with
  | nil =>
    have : t = [] := by
      cases t with
      | nil => rfl
      | cons a b => simp at h
    simp [includesList, this]
  | cons c cs =>
    simp only [includesList, Bool.or_eq_true]
    left
    rw [← h]
    simp

theorem joinParagraphs_cons (p : String) (hdr : List String) :
    ∃ rest, joinParagraphs (p :: hdr) = p.data ++ rest ∧
      (rest = [] ∨ rest = '\r' :: joinParagraphs hdr) := by
  cases hdr with
  | nil => exact ⟨[], by simp [joinParagraphs], Or.inl rfl⟩
  | cons q qs => exact ⟨'\r' :: joinParagraphs (q :: qs), by simp [joinParagraphs], Or.inr rfl⟩

theorem includes_banner_cons (hdr : List String) :
    includes (String.mk (joinParagraphs (HEADER_TEXT :: hdr))) HEADER_TEXT = true := by
  obtain ⟨rest, e, -⟩ := joinParagraphs_cons HEADER_TEXT hdr
  simp only [includes, e]
  exact includesList_append_self _ _

theorem countOccurrences_zero (t s : List Char) (h : includesList s t = false) :
    countOccurrences t s = 0 := by
  induction s with
  | nil =>
    simp only [includesList] at h
    simp [countOccurrences, h]
  | cons c cs ih =>
    simp only [includesList, Bool.or_eq_false_iff] at h
    simp [countOccurrences, h.1, ih h.2]

theorem banner_data : HEADER_TEXT.data =
    ['C', 'O', 'N', 'F', 'I', 'D', 'E', 'N', 'T', 'I', 'A', 'L', ' ',
      'D', 'O', 'C', 'U', 'M', 'E', 'N', 'T'] := by
  decide

theorem countOccurrences_banner (s : List Char)
    (h : countOccurrences HEADER_TEXT.data s = 0) :
    countOccurrences HEADER_TEXT.data (HEADER_TEXT.data ++ '\r' :: s) = 1 := by
  rw [banner_data] at h ⊢
  simp [countOccurrences, List.isPrefixOf, h]

theorem countOccurrences_banner_cons (hdr : List String)
    (h : includes (String.mk (joinParagraphs hdr)) HEADER_TEXT = false) :
    countOccurrences HEADER_TEXT.data (joinParagraphs (HEADER_TEXT :: hdr)) = 1 := by
  obtain ⟨rest, e, hr⟩ := joinParagraphs_cons HEADER_TEXT hdr
  rw [e]
  rcases hr with rfl | rfl
  · rw [banner_data]
    decide
  · exact countOccurrences_banner _ (countOccurrences_zero _ _ h)

theorem insertHeader_doc (w : World Doc) (hsec : 0 < w.host.sections)
    (hq : w.host.queued = []) :
    insertHeader docHost w =
      (.ok (),
        if includes (docHost.headerText w.host) HEADER_TEXT = true then
          { w with host := w.host.flushed,
                   calls := w.calls ++ [.loadSections, .sync, .loadHeaderText, .sync] }
        else
          { w with host := { w.host.flushed with header := HEADER_TEXT :: w.host.header },
                   calls := w.calls ++ [.loadSections, .sync, .loadHeaderText, .sync,
                     .insertParagraph HEADER_TEXT, .sync] }) := by
  have hne : w.host.sections ≠ 0 := by omega
  by_cases hb : includes (String.mk (joinParagraphs w.host.header)) HEADER_TEXT = true
  · simp [insertHeader, tryCatch, bind_apply, pure_apply, call, readHost, docHost, Doc.step,
      Doc.flushed, hq, hne, hb]
  · simp [insertHeader, tryCatch, bind_apply, pure_apply, call, readHost, docHost, Doc.step,
      Doc.flushed, hq, hne, hb]

/-- C9: on a document with at least one section, no request pending and
requests that all succeed, a second `insertHeader` leaves the document as the
first left it and sends no insertion; if the header did not contain the banner
beforehand, the first run puts it in front and the header text then contains
it exactly once, also after the second run; if the header contained the banner
beforehand, `insertHeader` sends no insertion and the header is unchanged. -/
theorem insertHeader_idempotent (w : World Doc) (hsec : 0 < w.host.sections)
    (hq : w.host.queued = []) :
    (insertHeader docHost (insertHeader docHost w).2).2.host = (insertHeader docHost w).2.host ∧
    (insertHeader docHost (insertHeader docHost w).2).2.calls =
      (insertHeader docHost w).2.calls ++ [.loadSections, .sync, .loadHeaderText, .sync] ∧
    (includes (docHost.headerText w.host) HEADER_TEXT = false →
      (insertHeader docHost w).2.host.header = HEADER_TEXT :: w.host.header ∧
      countOccurrences HEADER_TEXT.data
        (docHost.headerText (insertHeader docHost w).2.host).data = 1 ∧
      countOccurrences HEADER_TEXT.data
        (docHost.headerText (insertHeader docHost (insertHeader docHost w).2).2.host).data
          = 1) ∧
    (includes (docHost.headerText w.host) HEADER_TEXT = true →
      (insertHeader docHost w).2.host.header = w.host.header ∧
      (insertHeader docHost w).2.calls =
        w.calls ++ [.loadSections, .sync, .loadHeaderText, .sync]) := by
  have h1 := insertHeader_doc w hsec hq
  by_cases hb : includes (docHost.headerText w.host) HEADER_TEXT = true
  · rw [if_pos hb] at h1
    have hb1 : includes (docHost.headerText w.host.flushed) HEADER_TEXT = true := hb
    have h2 := insertHeader_doc
      { w with host := w.host.flushed,
               calls := w.calls ++ [.loadSections, .sync, .loadHeaderText, .sync] }
      hsec rfl
    rw [if_pos hb1] at h2
    rw [h1]
    simp only [h2]
    refine ⟨by simp [Doc.flushed], trivial,
      fun hc => by rw [hb] at hc; exact absurd hc (by simp), fun _ => ⟨rfl, trivial⟩⟩
  · rw [if_neg hb] at h1
    have hb1 : includes (docHost.headerText
        { w.host.flushed with header := HEADER_TEXT :: w.host.header }) HEADER_TEXT = true :=
      includes_banner_cons _
    have h2 := insertHeader_doc
      { w with host := { w.host.flushed with header := HEADER_TEXT :: w.host.header },
               calls := w.calls ++ [.loadSections, .sync, .loadHeaderText, .sync,
                 .insertParagraph HEADER_TEXT, .sync] }
      hsec rfl
    rw [if_pos hb1] at h2
    rw [h1]
    simp only [h2]
    have hcount : countOccurrences HEADER_TEXT.data
        (joinParagraphs (HEADER_TEXT :: w.host.header)) = 1 :=
      countOccurrences_banner_cons _ (by simpa [docHost] using hb)
    refine ⟨by simp [Doc.flushed], ?_, fun _ => ⟨trivial, hcount, hcount⟩,
      fun hc => absurd hc hb⟩
    simp

/-- Witness of C9: a document with one section and an empty header. -/
theorem insertHeader_idempotent_witness :
    (insertHeader docHost (insertHeader docHost (World.init
      { sections := 1, header := [], body := "Hello world.", tracking := false,
        supportsTracking := true, queued := [], queuedTracking := false })).2).2.host.header
      = ["CONFIDENTIAL DOCUMENT"] := by
  have h := insertHeader_idempotent (World.init
      { sections := 1, header := [], body := "Hello world.", tracking := false,
        supportsTracking := true, queued := [], queuedTracking := false })
    (by decide) (by decide)
  rw [h.1]
  exact (h.2.2.1 (by decide)).1

/-! ## Theorems: a run without matches -/

end Taskpane
